import Mathlib

/-!
Verification development for the queersmission repository.

Shallow embedding of the core pure logic of the source files
(`storage.py`, `cat.py`, `client.py`, `config.py`, `utils.py`) together
with theorems settling the specification claims about them.

Modelling conventions:
* Python byte counts, sizes and leecher counts are `Nat`; quantities that
  may go negative in the source (capacities, free-space arithmetic) are `Int`.
* The float arithmetic the source uses in `knapsack` scaling, the noise
  threshold and the name bonus is modelled by exact rational/integer
  arithmetic (the mathematical values the expressions denote).
* Python strings are modelled as `List Char`; byte strings as `List Nat`.
-/

set_option autoImplicit false

namespace Queersmission

/-! ## Knapsack solver (`storage.py::knapsack`)

The source solves 0/1 knapsack by dynamic programming:

* `capacity <= 0` returns the empty set;
* `capacity >= sum(weights)` returns every index;
* otherwise, when `max_cells` is given, the capacity and weights may be
  scaled down by `scale = capacity * (n + 1) / (max_cells' - n - 1)` with
  `max_cells' = max(2 * (n + 1), max_cells)`; weights are rounded up
  (`ceil(w / scale)`), the capacity rounded down (`capacity // scale`);
* a DP table `dp[i][w]` is filled row by row and the chosen indices are
  recovered by backtracking (`dp[i][w] != dp[i-1][w]`).

`scale` is the exact rational `a / b` with `a = capacity * (n + 1)` and
`b = max_cells' - n - 1`; `ceil(w / scale) = ceil(w * b / a)` and
`capacity // scale = floor(capacity * b / a)`, which is what the
definitions below compute with integer arithmetic.
-/

/-- An item of the knapsack problem: `(weight, value)`. -/
abbrev Item := Nat × Nat

/-- Weight of item `i` (0 out of range, mirroring that the source never
reads out of range). -/
def itemW (wv : List Item) (i : Nat) : Nat := (wv.getD i (0, 0)).1

/-- Value of item `i`. -/
def itemV (wv : List Item) (i : Nat) : Nat := (wv.getD i (0, 0)).2

/-- The DP table of `knapsack`: `dp wv i w` is the source's `dp[i][w]`,
the best value using the first `i` items within capacity `w`.  Row `0` is
all zeros; row `i` improves `cur[w]` to `pre[w - wt] + vl` whenever
`wt <= w` and that candidate is larger. -/
def dp (wv : List Item) : Nat → Nat → Nat
  | 0, _ => 0
  | i + 1, w =>
    let wt := itemW wv i
    let vl := itemV wv i
    if wt ≤ w then max (dp wv i w) (dp wv i (w - wt) + vl) else dp wv i w

/-- Backtracking pass of `knapsack`: walking `i = n, ..., 1`, index
`i - 1` is chosen iff `dp[i][w] != dp[i-1][w]`, in which case the running
capacity drops by the item's weight. -/
def backtrack (wv : List Item) : Nat → Nat → Finset Nat
  | 0, _ => ∅
  | i + 1, w =>
    if dp wv (i + 1) w ≠ dp wv i w then
      insert i (backtrack wv i (w - itemW wv i))
    else backtrack wv i w

/-- Total weight of a chosen index set. -/
def weightSum (wv : List Item) (S : Finset Nat) : Nat := ∑ i ∈ S, itemW wv i

/-- Total value of a chosen index set. -/
def valueSum (wv : List Item) (S : Finset Nat) : Nat := ∑ i ∈ S, itemV wv i

/-- Ceiling division `ceil(x / a)` on naturals, the integer form of the
source's `ceil(w / scale)` for `scale = a / b` applied to `x = w * b`. -/
def ceilDiv (x a : Nat) : Nat := (x + a - 1) / a

/-- Scaling parameters of `knapsack`: for `n` items, positive capacity `c`
and requested `max_cells = mc`, the source sets
`max_cells' = max(2 * (n + 1), mc)` and uses the exact scale
`a / b = c * (n + 1) / (max_cells' - n - 1)`.  Returns `(a, b)`. -/
def scaleParams (n c mc : Nat) : Nat × Nat :=
  let mc' := max (2 * (n + 1)) mc
  (c * (n + 1), mc' - (n + 1))

/-- The weights actually used by the DP: scaled (rounded up) when
`max_cells` is present and `scale > 1` (that is, `b < a`). -/
def scaledWeights (weights : List Nat) (c : Nat) (mcap : Option Nat) : List Nat :=
  match mcap with
  | none => weights
  | some mc =>
    let p := scaleParams weights.length c mc
    if p.2 < p.1 then weights.map (fun w => ceilDiv (w * p.2) p.1) else weights

/-- The capacity actually used by the DP: scaled (rounded down) when
`max_cells` is present and `scale > 1`. -/
def scaledCapacity (n c : Nat) (mcap : Option Nat) : Nat :=
  match mcap with
  | none => c
  | some mc =>
    let p := scaleParams n c mc
    if p.2 < p.1 then c * p.2 / p.1 else c

/-- `storage.py::knapsack`.  Returns the set of chosen indices. -/
def knapsack (weights values : List Nat) (capacity : Int) (mcap : Option Nat) :
    Finset Nat :=
  if capacity ≤ 0 then ∅
  else if (weights.sum : Int) ≤ capacity then Finset.range weights.length
  else
    let c := capacity.toNat
    backtrack ((scaledWeights weights c mcap).zip values) weights.length
      (scaledCapacity weights.length c mcap)

lemma dp_succ (wv : List Item) (i w : Nat) :
    dp wv (i + 1) w =
      if itemW wv i ≤ w then
        max (dp wv i w) (dp wv i (w - itemW wv i) + itemV wv i)
      else dp wv i w := rfl

lemma dp_le_succ (wv : List Item) (i w : Nat) : dp wv i w ≤ dp wv (i + 1) w := by
  rw [dp_succ]
  split
  · exact le_max_left _ _
  · exact le_rfl

/-- `dp wv i w` is an upper bound for the value of every subset of the
first `i` items whose weight fits in `w`. -/
lemma dp_upper (wv : List Item) :
    ∀ (i w : Nat) (S : Finset Nat), S ⊆ Finset.range i →
      weightSum wv S ≤ w → valueSum wv S ≤ dp wv i w := by
  intro i
  induction i with
  | zero =>
    intro w S hS _
    have : S = ∅ := Finset.subset_empty.mp (by simpa using hS)
    simp [this, valueSum, dp]
  | succ i ih =>
    intro w S hS hw
    by_cases hi : i ∈ S
    · have hsub : S.erase i ⊆ Finset.range i := by
        intro x hx
        have hx' := hS (Finset.mem_of_mem_erase hx)
        have hxi : x ≠ i := Finset.ne_of_mem_erase hx
        have : x < i + 1 := Finset.mem_range.mp hx'
        exact Finset.mem_range.mpr (by omega)
      have hwsum : weightSum wv (S.erase i) + itemW wv i = weightSum wv S :=
        Finset.sum_erase_add S _ hi
      have hvsum : valueSum wv (S.erase i) + itemV wv i = valueSum wv S :=
        Finset.sum_erase_add S _ hi
      have hwt : itemW wv i ≤ w := by omega
      have hrest : weightSum wv (S.erase i) ≤ w - itemW wv i := by omega
      have hv := ih (w - itemW wv i) (S.erase i) hsub hrest
      rw [dp_succ, if_pos hwt]
      calc valueSum wv S = valueSum wv (S.erase i) + itemV wv i := hvsum.symm
        _ ≤ dp wv i (w - itemW wv i) + itemV wv i := by omega
        _ ≤ max (dp wv i w) (dp wv i (w - itemW wv i) + itemV wv i) :=
            le_max_right _ _
    · have hsub : S ⊆ Finset.range i := by
        intro x hx
        have : x < i + 1 := Finset.mem_range.mp (hS hx)
        have hxi : x ≠ i := fun h => hi (h ▸ hx)
        exact Finset.mem_range.mpr (by omega)
      exact le_trans (ih w S hsub hw) (dp_le_succ wv i w)

/-- The backtracking pass returns a subset of the first `i` indices whose
weight fits in `w` and whose value attains `dp wv i w`. -/
lemma backtrack_spec (wv : List Item) :
    ∀ (i w : Nat),
      backtrack wv i w ⊆ Finset.range i ∧
      weightSum wv (backtrack wv i w) ≤ w ∧
      valueSum wv (backtrack wv i w) = dp wv i w := by
  intro i
  induction i with
  | zero =>
    intro w
    refine ⟨by simp [backtrack], ?_, ?_⟩ <;> simp [backtrack, weightSum, valueSum, dp]
  | succ i ih =>
    intro w
    by_cases hne : dp wv (i + 1) w = dp wv i w
    · have hbt : backtrack wv (i + 1) w = backtrack wv i w := by
        simp [backtrack, hne]
      obtain ⟨h1, h2, h3⟩ := ih w
      exact ⟨hbt ▸ h1.trans (Finset.range_subset.mpr (Nat.le_succ i)),
        hbt ▸ h2, by rw [hbt, h3, hne]⟩
    · have hbt : backtrack wv (i + 1) w =
          insert i (backtrack wv i (w - itemW wv i)) := by
        simp [backtrack, hne]
      have hwt : itemW wv i ≤ w := by
        by_contra hwt
        exact hne (by rw [dp_succ, if_neg hwt])
      have heq : dp wv (i + 1) w = dp wv i (w - itemW wv i) + itemV wv i := by
        rw [dp_succ, if_pos hwt] at hne ⊢
        rcases max_choice (dp wv i w) (dp wv i (w - itemW wv i) + itemV wv i)
          with h | h
        · exact absurd h hne
        · exact h
      obtain ⟨h1, h2, h3⟩ := ih (w - itemW wv i)
      have hnotmem : i ∉ backtrack wv i (w - itemW wv i) := by
        intro hmem
        exact absurd (Finset.mem_range.mp (h1 hmem)) (lt_irrefl i)
      refine ⟨?_, ?_, ?_⟩
      · rw [hbt]
        intro x hx
        rcases Finset.mem_insert.mp hx with h | h
        · exact Finset.mem_range.mpr (h ▸ Nat.lt_succ_self i)
        · exact Finset.mem_range.mpr (Nat.lt_succ_of_lt (Finset.mem_range.mp (h1 h)))
      · rw [hbt]
        unfold weightSum
        rw [Finset.sum_insert hnotmem]
        have := h2
        unfold weightSum at this
        omega
      · rw [hbt]
        unfold valueSum
        rw [Finset.sum_insert hnotmem]
        unfold valueSum at h3
        omega

lemma le_mul_ceilDiv (x a : Nat) (ha : 0 < a) : x ≤ a * ceilDiv x a := by
  have h1 := Nat.div_add_mod (x + a - 1) a
  have h2 := Nat.mod_lt (x + a - 1) ha
  unfold ceilDiv
  generalize hq : a * ((x + a - 1) / a) = t at *
  omega

lemma getD_map_nat (f : Nat → Nat) :
    ∀ (l : List Nat) (i : Nat), i < l.length → (l.map f).getD i 0 = f (l.getD i 0) := by
  intro l
  induction l with
  | nil => intro i h; simp at h
  | cons x xs ih =>
    intro i h
    cases i with
    | zero => simp
    | succ j => simpa using ih j (by simpa using h)

lemma zip_getD (xs ys : List Nat) :
    ∀ (i : Nat), i < xs.length → i < ys.length →
      (xs.zip ys).getD i (0, 0) = (xs.getD i 0, ys.getD i 0) := by
  induction xs generalizing ys with
  | nil => intro i h; simp at h
  | cons x xs ih =>
    intro i hx hy
    cases ys with
    | nil => simp at hy
    | cons y ys =>
      cases i with
      | zero => simp
      | succ j =>
        simp only [List.zip_cons_cons, List.getD_cons_succ]
        exact ih ys j (by simpa using hx) (by simpa using hy)

lemma sum_range_getD (l : List Nat) :
    ∑ i ∈ Finset.range l.length, l.getD i 0 = l.sum := by
  induction l with
  | nil => simp
  | cons x xs ih =>
    rw [List.length_cons, Finset.sum_range_succ']
    simp only [List.getD_cons_succ, List.getD_cons_zero, List.sum_cons]
    omega

lemma scaledWeights_length (weights : List Nat) (c : Nat) (mcap : Option Nat) :
    (scaledWeights weights c mcap).length = weights.length := by
  cases mcap with
  | none => rfl
  | some mc =>
    simp only [scaledWeights]
    split <;> simp

/-- Rounding weights up while rounding the capacity down guarantees that a
set of indices feasible for the scaled problem is feasible for the
original (unscaled) one. -/
lemma unscaled_feasibility (weights : List Nat) (c : Nat) (mcap : Option Nat)
    (S : Finset Nat) (hS : S ⊆ Finset.range weights.length)
    (hfit : ∑ i ∈ S, (scaledWeights weights c mcap).getD i 0 ≤
      scaledCapacity weights.length c mcap) :
    ∑ i ∈ S, weights.getD i 0 ≤ c := by
  cases mcap with
  | none => exact le_trans hfit (by simp [scaledCapacity])
  | some mc =>
    by_cases hscale : (scaleParams weights.length c mc).2 <
        (scaleParams weights.length c mc).1
    · set n := weights.length with hn
      set a := (scaleParams n c mc).1 with hadef
      set b := (scaleParams n c mc).2 with hbdef
      have ha : 0 < a := lt_of_le_of_lt (Nat.zero_le b) hscale
      have hb : 0 < b := by
        have h2 : 2 * (n + 1) ≤ max (2 * (n + 1)) mc := le_max_left _ _
        simp only [hbdef, scaleParams]
        omega
      have hws : ∀ i ∈ S, (scaledWeights weights c (some mc)).getD i 0 =
          ceilDiv (weights.getD i 0 * b) a := by
        intro i hi
        have hilt : i < weights.length := Finset.mem_range.mp (hS hi)
        simp only [scaledWeights, ← hadef, ← hbdef, if_pos hscale]
        exact getD_map_nat _ weights i hilt
      have hcap : scaledCapacity n c (some mc) = c * b / a := by
        simp only [scaledCapacity, ← hadef, ← hbdef, if_pos hscale]
      rw [Finset.sum_congr rfl hws, hcap] at hfit
      have hstep : ∀ i ∈ S, weights.getD i 0 * b ≤
          a * ceilDiv (weights.getD i 0 * b) a :=
        fun i _ => le_mul_ceilDiv _ a ha
      have hchain : ∑ i ∈ S, weights.getD i 0 * b ≤ c * b := by
        calc ∑ i ∈ S, weights.getD i 0 * b
            ≤ ∑ i ∈ S, a * ceilDiv (weights.getD i 0 * b) a :=
              Finset.sum_le_sum hstep
          _ = a * ∑ i ∈ S, ceilDiv (weights.getD i 0 * b) a :=
              (Finset.mul_sum _ _ _).symm
          _ ≤ a * (c * b / a) := Nat.mul_le_mul_left a hfit
          _ ≤ c * b := by
              have := Nat.div_mul_le_self (c * b) a
              calc a * (c * b / a) = c * b / a * a := Nat.mul_comm _ _
                _ ≤ c * b := this
      rw [← Finset.sum_mul] at hchain
      exact Nat.le_of_mul_le_mul_right hchain hb
    · have hws : scaledWeights weights c (some mc) = weights := by
        simp only [scaledWeights, if_neg hscale]
      have hcap : scaledCapacity weights.length c (some mc) = c := by
        simp only [scaledCapacity, if_neg hscale]
      rw [hws, hcap] at hfit
      exact hfit

/-- Main specification of `knapsack` for positive capacity: the returned
set is (1) feasible for the original weights, (2) feasible for the scaled
problem whenever the DP actually runs, (3) value-maximal among all sets
feasible for the scaled problem, and (4) a subset of the index range. -/
lemma knapsack_main (weights values : List Nat) (capacity : Int) (mcap : Option Nat)
    (hlen : values.length = weights.length) (hpos : 0 < capacity) :
    ((∑ i ∈ knapsack weights values capacity mcap, (weights.getD i 0 : Int)) ≤
      capacity) ∧
    (capacity < (weights.sum : Int) →
      ∑ i ∈ knapsack weights values capacity mcap,
        (scaledWeights weights capacity.toNat mcap).getD i 0 ≤
        scaledCapacity weights.length capacity.toNat mcap) ∧
    (∀ T ⊆ Finset.range weights.length,
      (∑ i ∈ T, (scaledWeights weights capacity.toNat mcap).getD i 0 ≤
        scaledCapacity weights.length capacity.toNat mcap) →
      (∑ i ∈ T, values.getD i 0) ≤
        ∑ i ∈ knapsack weights values capacity mcap, values.getD i 0) ∧
    knapsack weights values capacity mcap ⊆ Finset.range weights.length := by
  have hnotle : ¬ capacity ≤ 0 := not_le.mpr hpos
  by_cases hsum : (weights.sum : Int) ≤ capacity
  · have hk : knapsack weights values capacity mcap = Finset.range weights.length := by
      rw [knapsack, if_neg hnotle, if_pos hsum]
    refine ⟨?_, fun hlt => absurd hsum (not_le.mpr hlt), ?_, ?_⟩
    · rw [hk]
      have : ∑ i ∈ Finset.range weights.length, (weights.getD i 0 : Int) =
          ((weights.sum : Nat) : Int) := by
        rw [← sum_range_getD weights]
        push_cast
        rfl
      rw [this]
      exact hsum
    · intro T hT _
      rw [hk]
      exact Finset.sum_le_sum_of_subset hT
    · rw [hk]
  · set n := weights.length with hn
    set c : Nat := capacity.toNat with hc
    set ws := scaledWeights weights c mcap with hws
    set cap := scaledCapacity n c mcap with hcap
    set wv := ws.zip values with hwv
    have hcint : (c : Int) = capacity := Int.toNat_of_nonneg hpos.le
    have hk : knapsack weights values capacity mcap = backtrack wv n cap := by
      rw [knapsack, if_neg hnotle, if_neg hsum]
    have hwslen : ws.length = n := scaledWeights_length weights c mcap
    obtain ⟨hsub, hwfit, hval⟩ := backtrack_spec wv n cap
    have bridgeW : ∀ S : Finset Nat, S ⊆ Finset.range n →
        weightSum wv S = ∑ i ∈ S, ws.getD i 0 := by
      intro S hS
      refine Finset.sum_congr rfl fun i hi => ?_
      have hilt : i < n := Finset.mem_range.mp (hS hi)
      unfold itemW
      rw [hwv, zip_getD ws values i (by omega) (by omega)]
    have bridgeV : ∀ S : Finset Nat, S ⊆ Finset.range n →
        valueSum wv S = ∑ i ∈ S, values.getD i 0 := by
      intro S hS
      refine Finset.sum_congr rfl fun i hi => ?_
      have hilt : i < n := Finset.mem_range.mp (hS hi)
      unfold itemV
      rw [hwv, zip_getD ws values i (by omega) (by omega)]
    have hscaledfit : ∑ i ∈ backtrack wv n cap, ws.getD i 0 ≤ cap := by
      rw [← bridgeW _ hsub]
      exact hwfit
    refine ⟨?_, fun _ => by rw [hk]; exact hscaledfit, ?_, by rw [hk]; exact hsub⟩
    · rw [hk]
      have hnat : ∑ i ∈ backtrack wv n cap, weights.getD i 0 ≤ c :=
        unscaled_feasibility weights c mcap _ hsub hscaledfit
      calc ∑ i ∈ backtrack wv n cap, (weights.getD i 0 : Int)
          = ((∑ i ∈ backtrack wv n cap, weights.getD i 0 : Nat) : Int) := by
            push_cast; rfl
        _ ≤ (c : Int) := by exact_mod_cast hnat
        _ = capacity := hcint
    · intro T hT hTfit
      rw [hk, ← bridgeV _ hsub, ← bridgeV _ hT, hval]
      exact dp_upper wv n cap T hT (by rw [bridgeW _ hT]; exact hTfit)

/-- C1 (amended): for equal-length lists of (non-negative) weights and
values and a **positive** integer capacity, with or without `max_cells`,
the index set returned by `knapsack` (1) has unscaled weight at most the
original capacity, (2) has scaled weight at most the scaled capacity
whenever the DP actually runs (`capacity < sum(weights)`), and (3) has
maximal total value among all subsets feasible for the scaled problem.
For `capacity ≤ 0` the empty set is returned, whose weight `0` can exceed
a negative capacity, so the claim's unconditional feasibility fails. -/
theorem knapsack_feasible_and_optimal (weights values : List Nat) (capacity : Int)
    (mcap : Option Nat) (hlen : values.length = weights.length)
    (hpos : 0 < capacity) :
    ((∑ i ∈ knapsack weights values capacity mcap, (weights.getD i 0 : Int)) ≤
      capacity) ∧
    (capacity < (weights.sum : Int) →
      ∑ i ∈ knapsack weights values capacity mcap,
        (scaledWeights weights capacity.toNat mcap).getD i 0 ≤
        scaledCapacity weights.length capacity.toNat mcap) ∧
    (∀ T ⊆ Finset.range weights.length,
      (∑ i ∈ T, (scaledWeights weights capacity.toNat mcap).getD i 0 ≤
        scaledCapacity weights.length capacity.toNat mcap) →
      (∑ i ∈ T, values.getD i 0) ≤
        ∑ i ∈ knapsack weights values capacity mcap, values.getD i 0) := by
  obtain ⟨h1, h2, h3, _⟩ := knapsack_main weights values capacity mcap hlen hpos
  exact ⟨h1, h2, h3⟩

/-- Witness for C1: the theorem applied at
`weights = [2, 3]`, `values = [4, 5]`, `capacity = 4`, no `max_cells`. -/
theorem knapsack_feasible_and_optimal_witness :
    (∑ i ∈ knapsack [2, 3] [4, 5] 4 none, (([2, 3] : List Nat).getD i 0 : Int)) ≤ 4 :=
  (knapsack_feasible_and_optimal [2, 3] [4, 5] 4 none (by decide) (by decide)).1

/-- Counterexample for C1 as stated: at `weights = [3]`, `values = [1]`,
`capacity = -1`, `knapsack` returns the empty set, whose unscaled weight
sum `0` is **not** at most the capacity `-1`; so feasibility does not hold
for every integer capacity. -/
theorem knapsack_negative_capacity_cex :
    knapsack [3] [1] (-1) none = ∅ ∧
    ¬ ((∑ i ∈ knapsack [3] [1] (-1) none, (([3] : List Nat).getD i 0 : Int)) ≤ -1) := by
  constructor
  · rfl
  · decide

/-- C4 (amended): `knapsack` returns the empty set whenever
`capacity ≤ 0` (but may also return it for positive capacity, e.g. when
every item is too heavy); it returns the set of all indices whenever
`capacity > 0` and `capacity ≥ sum(weights)`, and — for a non-empty item
list — only then; and `knapsack [] [] c` is empty for every `c`. -/
theorem knapsack_boundary_amended (weights values : List Nat) (capacity : Int)
    (mcap : Option Nat) (hlen : values.length = weights.length) :
    (capacity ≤ 0 → knapsack weights values capacity mcap = ∅) ∧
    (0 < capacity → (weights.sum : Int) ≤ capacity →
      knapsack weights values capacity mcap = Finset.range weights.length) ∧
    (weights ≠ [] → knapsack weights values capacity mcap = Finset.range weights.length →
      0 < capacity ∧ (weights.sum : Int) ≤ capacity) ∧
    (knapsack ([] : List Nat) ([] : List Nat) capacity mcap = ∅) := by
  refine ⟨?_, ?_, ?_, ?_⟩
  · intro h
    rw [knapsack, if_pos h]
  · intro hpos hsum
    rw [knapsack, if_neg (not_le.mpr hpos), if_pos hsum]
  · intro hne hall
    have hn : 0 < weights.length := List.length_pos.mpr hne
    by_cases hpos : 0 < capacity
    · refine ⟨hpos, ?_⟩
      by_contra hsum
      have hlt : capacity < (weights.sum : Int) := not_le.mp hsum
      obtain ⟨h1, _, _, _⟩ := knapsack_main weights values capacity mcap hlen hpos
      rw [hall] at h1
      have : ∑ i ∈ Finset.range weights.length, (weights.getD i 0 : Int) =
          ((weights.sum : Nat) : Int) := by
        rw [← sum_range_getD weights]
        push_cast
        rfl
      rw [this] at h1
      omega
    · exfalso
      have h0 : knapsack weights values capacity mcap = ∅ := by
        rw [knapsack, if_pos (not_lt.mp hpos)]
      rw [h0] at hall
      have : (0 : Nat) ∈ Finset.range weights.length := Finset.mem_range.mpr hn
      rw [← hall] at this
      exact absurd this (Finset.not_mem_empty 0)
  · by_cases hpos : capacity ≤ 0
    · rw [knapsack, if_pos hpos]
    · have hle : ((([] : List Nat).sum : Nat) : Int) ≤ capacity := by
        simp
        omega
      rw [knapsack, if_neg hpos, if_pos hle]
      rfl

/-- Witness for C4: the theorem applied at
`weights = [2, 3]`, `values = [4, 5]`, `capacity = 10`: all indices are
returned since `10 ≥ 2 + 3`. -/
theorem knapsack_boundary_amended_witness :
    knapsack [2, 3] [4, 5] 10 none = Finset.range 2 :=
  (knapsack_boundary_amended [2, 3] [4, 5] 10 none (by decide)).2.1
    (by decide) (by decide)

/-- Counterexample for C4 as stated: at `weights = [10]`, `values = [5]`,
`capacity = 3`, the result is empty although the capacity is positive, so
"empty iff capacity ≤ 0" fails. -/
theorem knapsack_empty_iff_cex :
    ¬ ((knapsack [10] [5] 3 none = ∅) ↔ ((3 : Int) ≤ 0)) := by
  decide

/-! ## Quota enforcement (`storage.py::StorageManager.apply_quotas`)

The method reads `(disk_total, disk_free)` from the client, sums
`sizeWhenDone` over the seed-dir snapshot, applies the case-dependent
adjustments (case 1: `disk_free -= t_size`; case 4: `disk_free -= t_size;
used_size += t_size`; cases 2 and 3 raise `ValueError`), computes
`cap = disk_total - reserve_space` overridden by the quota when
`0 < quota < cap`, and finally
`size_to_free = max(used_size - cap, reserve_space - disk_free)`.
The embedding returns that `size_to_free` (a positive value is the number
of bytes the removal selection is then asked to free); errors are
`Except.error`. -/

/-- Environment read by `apply_quotas`: configuration, `get_freespace()`
output, and the snapshot (`seed_dir_torrents` as `(id, sizeWhenDone)`
pairs, `torrents` as an id-to-size lookup). -/
structure QuotaEnv where
  quota : Nat
  reserve_space : Nat
  disk_total : Nat
  disk_free : Nat
  seed_dir_torrents : List (Nat × Nat)
  torrents : Nat → Nat

/-- The capacity bound of `apply_quotas`: `disk_total - reserve_space`,
overridden by the user quota when `0 < quota < cap`. -/
def quotaCap (quota reserve_space disk_total : Nat) : Int :=
  let cap : Int := (disk_total : Int) - (reserve_space : Int)
  if 0 < (quota : Int) ∧ (quota : Int) < cap then (quota : Int) else cap

/-- `size_to_free = max(used_size - cap, reserve_space - disk_free)`. -/
def sizeToFree (quota reserve_space disk_total : Nat) (used_size disk_free : Int) :
    Int :=
  max (used_size - quotaCap quota reserve_space disk_total)
    ((reserve_space : Int) - disk_free)

/-- `storage.py::StorageManager.apply_quotas`, reduced to the
`size_to_free` it computes (or the `ValueError` it raises). -/
def apply_quotas (env : QuotaEnv) (tid : Option Nat) (torrent_added : Option Bool) :
    Except String Int :=
  let disk_free : Int := (env.disk_free : Int)
  let used_size : Int := ((env.seed_dir_torrents.map Prod.snd).sum : Int)
  match tid with
  | none =>
    .ok (sizeToFree env.quota env.reserve_space env.disk_total used_size disk_free)
  | some t =>
    match torrent_added with
    | none => .error "tid without torrent_added"
    | some ta =>
      let in_seed_dir : Bool := env.seed_dir_torrents.any fun p => p.1 == t
      if ta && !in_seed_dir then .error "case 2: torrent_added but not in seed_dir"
      else if !ta && in_seed_dir then .error "case 3: torrent_done but in seed_dir"
      else
        let t_size : Int := (env.torrents t : Int)
        let disk_free := disk_free - t_size
        let used_size := if !ta then used_size + t_size else used_size
        .ok (sizeToFree env.quota env.reserve_space env.disk_total used_size disk_free)

/-- C2: in every permitted call shape, `apply_quotas` computes
`size_to_free = max(used - cap, reserve - free)` with `used` the snapshot
sum (plus the torrent's size in case 4), `free` the volume's free bytes
(minus the torrent's size in cases 1 and 4), and
`cap = diskTotal - reserve` overridden by the quota when
`0 < quota < diskTotal - reserve`.  The cap and `size_to_free` on the
right-hand sides are spelled out exactly as the claim states them. -/
theorem apply_quotas_formula (env : QuotaEnv) (t : Nat) :
    (apply_quotas env none none =
      .ok (max
        (((env.seed_dir_torrents.map Prod.snd).sum : Int) -
          (if 0 < (env.quota : Int) ∧
              (env.quota : Int) < (env.disk_total : Int) - (env.reserve_space : Int)
            then (env.quota : Int)
            else (env.disk_total : Int) - (env.reserve_space : Int)))
        ((env.reserve_space : Int) - (env.disk_free : Int)))) ∧
    ((env.seed_dir_torrents.any fun p => p.1 == t) = true →
      apply_quotas env (some t) (some true) =
      .ok (max
        (((env.seed_dir_torrents.map Prod.snd).sum : Int) -
          (if 0 < (env.quota : Int) ∧
              (env.quota : Int) < (env.disk_total : Int) - (env.reserve_space : Int)
            then (env.quota : Int)
            else (env.disk_total : Int) - (env.reserve_space : Int)))
        ((env.reserve_space : Int) -
          ((env.disk_free : Int) - (env.torrents t : Int))))) ∧
    ((env.seed_dir_torrents.any fun p => p.1 == t) = false →
      apply_quotas env (some t) (some false) =
      .ok (max
        ((((env.seed_dir_torrents.map Prod.snd).sum : Int) + (env.torrents t : Int)) -
          (if 0 < (env.quota : Int) ∧
              (env.quota : Int) < (env.disk_total : Int) - (env.reserve_space : Int)
            then (env.quota : Int)
            else (env.disk_total : Int) - (env.reserve_space : Int)))
        ((env.reserve_space : Int) -
          ((env.disk_free : Int) - (env.torrents t : Int))))) := by
  refine ⟨rfl, fun hin => ?_, fun hout => ?_⟩
  · simp [apply_quotas, hin, sizeToFree, quotaCap]
  · simp [apply_quotas, hout, sizeToFree, quotaCap]

/-- Witness for C2, the claim's concrete case-4 scenario:
`diskTotal = 100 GiB`, `free = 10 GiB`, `reserve = 5 GiB`, `quota = 0`,
`used = 50 GiB`, `tSize = 20 GiB` gives
`size_to_free = max(70 - 95, 5 - (-10)) GiB = 15 GiB`, a positive request
to remove at least 15 GiB. -/
theorem apply_quotas_formula_witness :
    apply_quotas
      { quota := 0, reserve_space := 5 * 1073741824, disk_total := 100 * 1073741824,
        disk_free := 10 * 1073741824, seed_dir_torrents := [(7, 50 * 1073741824)],
        torrents := fun _ => 20 * 1073741824 }
      (some 1) (some false) = .ok (15 * 1073741824) ∧
    (0 : Int) < 15 * 1073741824 := by
  have h := (apply_quotas_formula
    { quota := 0, reserve_space := 5 * 1073741824, disk_total := 100 * 1073741824,
      disk_free := 10 * 1073741824, seed_dir_torrents := [(7, 50 * 1073741824)],
      torrents := fun _ => 20 * 1073741824 } 1).2.2 (by decide)
  rw [h]
  refine ⟨?_, by decide⟩
  norm_num

/-! ## Seed-dir purge (`storage.py::StorageManager._clean_seed_dir`)

The purge scans the seed directory, collects every entry that is neither
in the `allowed` name set nor a spared `.part` file, and — unless that
would delete every scanned entry — removes the collected extras.  The
embedding computes the list of entries that get deleted. -/

/-- A directory entry as seen by `os.scandir`: its name and what
`is_file()` reports (`none` models an `OSError` from the stat call, which
the source also treats as sparing a candidate `.part` entry). -/
structure DirEntry where
  name : List Char
  is_file : Option Bool
deriving DecidableEq

/-- `os.path.splitext` on a bare file name (no path separators): split at
the last dot unless every character before that dot is itself a dot. -/
def splitext (cs : List Char) : List Char × List Char :=
  match cs.reverse.findIdx? (· = '.') with
  | none => (cs, [])
  | some j =>
    let k := cs.length - 1 - j
    let pre := cs.take k
    if pre.any (fun c => c ≠ '.') then (pre, cs.drop k) else (cs, [])

/-- A `.part` entry spared by the purge: its extension lowercases to
`".part"`, its stem is allowed, and `is_file()` did not report `False`
(either it reported `True` or it raised, both of which `continue`). -/
def sparedPart (allowed : List (List Char)) (e : DirEntry) : Bool :=
  let se := splitext e.name
  (se.2.map Char.toLower == ['.', 'p', 'a', 'r', 't']) &&
    allowed.contains se.1 && !(e.is_file == some false)

/-- An entry the scan loop appends to `extras`. -/
def toDelete (allowed : List (List Char)) (e : DirEntry) : Bool :=
  !(allowed.contains e.name) && !(sparedPart allowed e)

/-- `storage.py::StorageManager._clean_seed_dir`, reduced to the list of
entries it deletes: the extras, unless the extras are non-empty and cover
every scanned entry, in which case the purge refuses and deletes
nothing. -/
def clean_seed_dir_deletions (allowed : List (List Char)) (entries : List DirEntry) :
    List DirEntry :=
  let extras := entries.filter (toDelete allowed)
  if extras ≠ [] ∧ extras.length = entries.length then [] else extras

/-- C3: when at least one entry is scanned and every scanned entry would
be deleted (its name is not allowed and it is not a spared `.part` file),
the purge deletes nothing. -/
theorem clean_seed_dir_noop (allowed : List (List Char)) (entries : List DirEntry)
    (hne : entries ≠ [])
    (hall : ∀ e ∈ entries, toDelete allowed e = true) :
    clean_seed_dir_deletions allowed entries = [] := by
  have hfilter : entries.filter (toDelete allowed) = entries :=
    List.filter_eq_self.mpr hall
  simp [clean_seed_dir_deletions, hfilter, hne]

/-- Witness for C3, the spec's "purge skip" scenario: the seed dir holds
a single entry `ghost` and the snapshot allows nothing, so nothing is
deleted. -/
theorem clean_seed_dir_noop_witness :
    clean_seed_dir_deletions []
      [{ name := ['g', 'h', 'o', 's', 't'], is_file := some false }] = [] :=
  clean_seed_dir_noop []
    [{ name := ['g', 'h', 'o', 's', 't'], is_file := some false }]
    (by decide) (by decide)

/-! ## Classifier noise removal (`cat.py::Categorizer._drop_noise`)

Mappings are embedded as association lists in insertion order (Python
dicts preserve insertion order); the float threshold
`min(max(values) * 0.05, 52428800)` is modelled as the exact rational it
denotes. -/

/-- Key of the classifier's `videos`/`containers` dicts: `(root, ext)`. -/
abbrev PathKey := List Char × List Char

/-- `cat.py::Categorizer._drop_noise`: with at least two entries, drop
those whose size is below 5% of the largest (capped at 50 MiB). -/
def drop_noise (path_bytes : List (PathKey × Nat)) : List (PathKey × Nat) :=
  if path_bytes.length < 2 then path_bytes
  else
    let m := (path_bytes.map Prod.snd).foldl max 0
    path_bytes.filter fun kv =>
      decide (min ((m : ℚ) * (5 / 100)) 52428800 ≤ (kv.2 : ℚ))

lemma foldl_max_mem_or (vs : List Nat) :
    ∀ a : Nat, vs.foldl max a ∈ vs ∨ vs.foldl max a = a := by
  induction vs with
  | nil => intro a; right; rfl
  | cons v vs ih =>
    intro a
    rcases ih (max a v) with h | h
    · left; exact List.mem_cons_of_mem v h
    · rcases le_total a v with hav | hav
      · left
        rw [List.foldl_cons, h, max_eq_right hav]
        exact List.mem_cons_self v vs
      · right
        rw [List.foldl_cons, h, max_eq_left hav]

lemma noise_threshold_le (m : Nat) :
    min ((m : ℚ) * (5 / 100)) 52428800 ≤ (m : ℚ) := by
  refine le_trans (min_le_left _ _) ?_
  have hm : (0 : ℚ) ≤ (m : ℚ) := by positivity
  nlinarith

/-- C9: `_drop_noise` keeps every entry of maximal size (the threshold
never exceeds the maximum), returns sub-two-entry mappings unchanged, and
in particular maps non-empty inputs to non-empty outputs. -/
theorem drop_noise_spec (l : List (PathKey × Nat)) (hne : l ≠ []) :
    drop_noise l ≠ [] ∧
    (∀ kv ∈ l, kv.2 = (l.map Prod.snd).foldl max 0 → kv ∈ drop_noise l) ∧
    (l.length < 2 → drop_noise l = l) ∧
    min (((((l.map Prod.snd).foldl max 0 : Nat)) : ℚ) * (5 / 100)) 52428800 ≤
      ((((l.map Prod.snd).foldl max 0 : Nat)) : ℚ) := by
  by_cases hlen : l.length < 2
  · refine ⟨by rwa [drop_noise, if_pos hlen], fun kv hkv _ => ?_, fun _ => ?_,
      noise_threshold_le _⟩
    · rwa [drop_noise, if_pos hlen]
    · rw [drop_noise, if_pos hlen]
  · set m := (l.map Prod.snd).foldl max 0 with hm
    have hdrop : drop_noise l = l.filter fun kv =>
        decide (min ((m : ℚ) * (5 / 100)) 52428800 ≤ (kv.2 : ℚ)) := by
      rw [drop_noise, if_neg hlen]
    have hkeep : ∀ kv ∈ l, kv.2 = m → kv ∈ drop_noise l := by
      intro kv hkv hsz
      rw [hdrop]
      refine List.mem_filter.mpr ⟨hkv, ?_⟩
      rw [decide_eq_true_eq, hsz]
      exact noise_threshold_le m
    refine ⟨?_, hkeep, fun h => absurd h hlen, noise_threshold_le _⟩
    rcases foldl_max_mem_or (l.map Prod.snd) 0 with hmem | hzero
    · obtain ⟨kv, hkv, hsnd⟩ := List.mem_map.mp hmem
      exact List.ne_nil_of_mem (hkeep kv hkv hsnd)
    · obtain ⟨kv, hkv⟩ := List.exists_mem_of_ne_nil l hne
      refine List.ne_nil_of_mem (a := kv) ?_
      rw [hdrop]
      refine List.mem_filter.mpr ⟨hkv, ?_⟩
      have hm0 : m = 0 := by rw [hm]; exact hzero
      rw [decide_eq_true_eq, hm0]
      simp

/-- Witness for C9: a feature plus a tiny sample; the mapping stays
non-empty. -/
theorem drop_noise_spec_witness :
    drop_noise [((['f'], ['m', 'k', 'v']), 8589934592),
                ((['s'], ['m', 'k', 'v']), 20971520)] ≠ [] :=
  (drop_noise_spec
    [((['f'], ['m', 'k', 'v']), 8589934592), ((['s'], ['m', 'k', 'v']), 20971520)]
    (by decide)).1

/-! ## Config password obfuscation (`config.py::parse`, `config.py::xor_cipher`)

Passwords are modelled at the byte level (`List Nat`, each entry `< 256`);
`str.encode`/`bytes.decode` are the identity on that representation for
valid data.  `{` is byte 123 and `}` is byte 125. -/

/-- The fixed key `b"Claire Kuo"`. -/
def xorKey : List Nat := [67, 108, 97, 105, 114, 101, 32, 75, 117, 111]

/-- Helper for `xor_cipher`: XOR position `i` onward against the cycled
key (`itertools.cycle` is indexing modulo the key length). -/
def xorCipherAux (i : Nat) : List Nat → List Nat
  | [] => []
  | x :: xs => (x ^^^ xorKey.getD (i % xorKey.length) 0) :: xorCipherAux (i + 1) xs

/-- `config.py::xor_cipher` with its default key. -/
def xor_cipher (b : List Nat) : List Nat := xorCipherAux 0 b

/-- Lowercase hex digit of a nibble, as a byte (`bytes.hex`). -/
def hexDigitByte (n : Nat) : Nat := if n < 10 then 48 + n else 87 + n

/-- `bytes.hex`: two lowercase hex digits per byte. -/
def bytesToHex (b : List Nat) : List Nat :=
  b.flatMap fun x => [hexDigitByte (x / 16), hexDigitByte (x % 16)]

/-- Value of one hex digit, upper or lower case (`bytes.fromhex`). -/
def hexVal (c : Nat) : Option Nat :=
  if 48 ≤ c ∧ c ≤ 57 then some (c - 48)
  else if 97 ≤ c ∧ c ≤ 102 then some (c - 87)
  else if 65 ≤ c ∧ c ≤ 70 then some (c - 55)
  else none

/-- `bytes.fromhex` on digit pairs (the whitespace tolerance of the
Python function is irrelevant to the forms the program writes). -/
def hexToBytes : List Nat → Option (List Nat)
  | [] => some []
  | [_] => none
  | c1 :: c2 :: rest =>
    match hexVal c1, hexVal c2, hexToBytes rest with
    | some h, some l, some bs => some ((16 * h + l) :: bs)
    | _, _, _ => none

/-- The password step of `config.py::parse`: returns
`(stored form written back to the file, cleartext returned in the
config)`, or `none` for the fatal cannot-decode path.  An empty password
is left alone; a `{HEX}` password is hex-decoded and XOR-deciphered; a
plain password is re-serialized as `{HEX}` while the cleartext is
returned. -/
def parse_password (p : List Nat) : Option (List Nat × List Nat) :=
  if p = [] then some (p, p)
  else if p.head? = some 123 ∧ p.getLast? = some 125 then
    match hexToBytes (p.drop 1).dropLast with
    | some bs => some (p, xor_cipher bs)
    | none => none
  else
    some ((123 :: bytesToHex (xor_cipher p)) ++ [125], p)

lemma xorCipherAux_involutive :
    ∀ (l : List Nat) (i : Nat), xorCipherAux i (xorCipherAux i l) = l := by
  intro l
  induction l with
  | nil => intro i; rfl
  | cons x xs ih =>
    intro i
    simp only [xorCipherAux, ih (i + 1), List.cons.injEq, and_true]
    rw [Nat.xor_assoc, Nat.xor_self, Nat.xor_zero]

lemma xorCipherAux_lt (l : List Nat) (hb : ∀ b ∈ l, b < 256) :
    ∀ i : Nat, ∀ b ∈ xorCipherAux i l, b < 256 := by
  induction l with
  | nil => intro i b hmem; simp [xorCipherAux] at hmem
  | cons x xs ih =>
    intro i b hmem
    rcases List.mem_cons.mp hmem with h | h
    · have hx : x < 256 := hb x (List.mem_cons_self x xs)
      have hk : xorKey.getD (i % xorKey.length) 0 < 256 := by
        have : i % xorKey.length < xorKey.length := by
          refine Nat.mod_lt i ?_
          simp [xorKey]
        revert this
        have : ∀ j, j < xorKey.length → xorKey.getD j 0 < 256 := by decide
        exact this _
      have := Nat.xor_lt_two_pow (n := 8) (by simpa using hx) (by simpa using hk)
      simpa [h] using this
    · exact ih (fun b hb' => hb b (List.mem_cons_of_mem x hb')) (i + 1) b h

lemma hexVal_hexDigitByte (n : Nat) (h : n < 16) :
    hexVal (hexDigitByte n) = some n := by
  interval_cases n <;> rfl

lemma hexToBytes_bytesToHex (bs : List Nat) (hb : ∀ b ∈ bs, b < 256) :
    hexToBytes (bytesToHex bs) = some bs := by
  induction bs with
  | nil => rfl
  | cons x xs ih =>
    have hx : x < 256 := hb x (List.mem_cons_self x xs)
    have hd : x / 16 < 16 := by omega
    have hm : x % 16 < 16 := Nat.mod_lt x (by omega)
    have hxs := ih fun b hb' => hb b (List.mem_cons_of_mem x hb')
    simp only [bytesToHex, List.flatMap_cons] at *
    have hrecomb : 16 * (x / 16) + x % 16 = x := by omega
    simp [bytesToHex, hexToBytes, hexVal_hexDigitByte _ hd,
      hexVal_hexDigitByte _ hm, hxs, hrecomb]

/-- C8: a non-empty plain (non-`{HEX}`) password is rewritten to the
`{HEX}` form — `{` ++ hex of the key-XORed bytes ++ `}` — while the
returned config keeps the cleartext; parsing the rewritten form again
yields the same cleartext. -/
theorem password_roundtrip (p : List Nat) (hne : p ≠ [])
    (hbytes : ∀ b ∈ p, b < 256)
    (hplain : ¬ (p.head? = some 123 ∧ p.getLast? = some 125)) :
    parse_password p = some ((123 :: bytesToHex (xor_cipher p)) ++ [125], p) ∧
    parse_password ((123 :: bytesToHex (xor_cipher p)) ++ [125]) =
      some ((123 :: bytesToHex (xor_cipher p)) ++ [125], p) := by
  constructor
  · rw [parse_password, if_neg hne, if_neg hplain]
  · have hstored_ne : (123 :: bytesToHex (xor_cipher p)) ++ [125] ≠ [] := by
      simp
    have hhead : ((123 :: bytesToHex (xor_cipher p)) ++ [125]).head? = some 123 := rfl
    have hlast : ((123 :: bytesToHex (xor_cipher p)) ++ [125]).getLast? = some 125 := by
      exact List.getLast?_concat _
    have hinner : (((123 :: bytesToHex (xor_cipher p)) ++ [125]).drop 1).dropLast =
        bytesToHex (xor_cipher p) := by
      simp
    have hdec : hexToBytes (bytesToHex (xor_cipher p)) = some (xor_cipher p) :=
      hexToBytes_bytesToHex _ (xorCipherAux_lt p hbytes 0)
    have hstep : parse_password ((123 :: bytesToHex (xor_cipher p)) ++ [125]) =
        some ((123 :: bytesToHex (xor_cipher p)) ++ [125],
          xor_cipher (xor_cipher p)) := by
      rw [parse_password, if_neg hstored_ne, if_pos ⟨hhead, hlast⟩, hinner, hdec]
    have hinv : xor_cipher (xor_cipher p) = p := by
      rw [xor_cipher, xor_cipher]
      exact xorCipherAux_involutive p 0
    rw [hstep, hinv]

/-- Witness for C8 at the password `"abc"` (bytes `[97, 98, 99]`). -/
theorem password_roundtrip_witness :
    parse_password ((123 :: bytesToHex (xor_cipher [97, 98, 99])) ++ [125]) =
      some ((123 :: bytesToHex (xor_cipher [97, 98, 99])) ++ [125], [97, 98, 99]) :=
  (password_roundtrip [97, 98, 99] (by decide) (by decide) (by decide)).2

/-! ## RPC retry loop (`client.py::Client._call`)

The source posts the query up to `_RETRIES = 3` times in a single `for`
loop.  Every iteration posts once; a 409 response stores the
`X-Transmission-Session-Id` header on the session and falls through to
the next loop iteration, a 401/403 raises `PermissionError` immediately,
any other failure records the last error; after the loop the last error
is raised.  The transport is modelled as a function from (request index,
session header sent) to a response, so that "the retry carries the
captured token" is observable. -/

/-- Response to one POST: success, HTTP 409 with a session token, HTTP
401/403, or any other failure (HTTP error, RPC-level failure, network
error). -/
inductive Resp where
  | ok
  | err409 (token : List Char)
  | errAuth
  | errOther
deriving DecidableEq

/-- Observable outcome of `Client._call`.  `success` records the session
header in effect for the successful request. -/
inductive CallOutcome where
  | success (sessionToken : Option (List Char))
  | permissionError
  | raiseLast (lastErr : Option Resp)
deriving DecidableEq

/-- The attempt loop of `_call`: `fuel` = remaining loop iterations, `i`
= index of the next request, `hdr` = current session header, `lastErr` =
last captured error. -/
def callAux (srv : Nat → Option (List Char) → Resp) :
    Nat → Nat → Option (List Char) → Option Resp → CallOutcome
  | 0, _, _, lastErr => .raiseLast lastErr
  | fuel + 1, i, hdr, _ =>
    match srv i hdr with
    | .ok => .success hdr
    | .err409 t => callAux srv fuel (i + 1) (some t) (some (.err409 t))
    | .errAuth => .permissionError
    | .errOther => callAux srv fuel (i + 1) hdr (some .errOther)

/-- `client.py::Client._call` with `_RETRIES = 3`, starting from session
header `hdr0`. -/
def call (srv : Nat → Option (List Char) → Resp) (hdr0 : Option (List Char)) :
    CallOutcome :=
  callAux srv 3 0 hdr0 none

/-- Modelled from the claim (not the source): the retry semantics the
claim describes, in which a 409 response captures the token and retries
immediately **without consuming one of the 3 attempts**; `fuel` bounds
the total number of requests so the definition terminates. -/
def callPerClaim (srv : Nat → Option (List Char) → Resp)
    (hdr0 : Option (List Char)) (fuel : Nat) : CallOutcome :=
  go fuel 3 0 hdr0 none
where
  go : Nat → Nat → Nat → Option (List Char) → Option Resp → CallOutcome
    | 0, _, _, _, lastErr => .raiseLast lastErr
    | _ + 1, 0, _, _, lastErr => .raiseLast lastErr
    | fuel + 1, attempts + 1, i, hdr, _ =>
      match srv i hdr with
      | .ok => .success hdr
      | .err409 t => go fuel (attempts + 1) (i + 1) (some t) (some (.err409 t))
      | .errAuth => .permissionError
      | .errOther => go fuel attempts (i + 1) hdr (some .errOther)

/-- C7 (amended): a 409 response stores the returned session token on the
session and the **next of the 3 total attempts** retries with it — so one
409 followed by success succeeds, two 409s followed by success still
succeed, but three 409s exhaust all attempts and the last error is
raised: a 409 consumes an attempt like any other failure. -/
theorem call_409_semantics (srv : Nat → Option (List Char) → Resp)
    (hdr0 : Option (List Char)) (t u : List Char) :
    (srv 0 hdr0 = .err409 t → srv 1 (some t) = .ok →
      call srv hdr0 = .success (some t)) ∧
    (srv 0 hdr0 = .err409 t → srv 1 (some t) = .err409 u → srv 2 (some u) = .ok →
      call srv hdr0 = .success (some u)) ∧
    (srv 0 hdr0 = .err409 t → srv 1 (some t) = .err409 u →
      srv 2 (some u) = .err409 u →
      call srv hdr0 = .raiseLast (some (.err409 u))) := by
  refine ⟨fun h0 h1 => ?_, fun h0 h1 h2 => ?_, fun h0 h1 h2 => ?_⟩ <;>
    simp [call, callAux, *]

/-- Witness for C7: a transport that responds 409 with token `t` to the
first request and succeeds as soon as the request carries `t`. -/
theorem call_409_semantics_witness :
    call (fun i hdr => if i = 0 then .err409 ['t']
      else if hdr = some ['t'] then .ok else .errOther) none =
      .success (some ['t']) :=
  (call_409_semantics
    (fun i hdr => if i = 0 then .err409 ['t']
      else if hdr = some ['t'] then .ok else .errOther) none ['t'] ['t']).1
    (by decide) (by decide)

/-- Counterexample for C7 as stated: against a transport that answers 409
three times and then succeeds, the source exhausts its 3 attempts on the
409s and raises, while the claim's semantics (409 does not consume an
attempt) reaches the success. -/
theorem call_409_consumes_attempt_cex :
    call (fun i _ => if i < 3 then .err409 ['t'] else .ok) none =
      .raiseLast (some (.err409 ['t'])) ∧
    callPerClaim (fun i _ => if i < 3 then .err409 ['t'] else .ok) none 10 =
      .success (some ['t']) := by
  constructor <;> rfl

/-! ## Snapshot cache (`client.py::Client._snapshot`, `utils.py::is_subpath`)

`_snapshot` fetches all torrents, canonicalizes `downloadDir` to a real
path for every torrent whose `downloadDir` differs from `seed_dir`, and
keeps in `seed_dir_torrents` exactly those whose (canonical) directory is
the seed dir or lies under it.  Both dicts are keyed by id with
dict-comprehension (last occurrence wins) semantics.  `os.path.realpath`
is an opaque parameter `rp`. -/

/-- `utils.py::is_subpath` with the POSIX separator: append a trailing
`/` to both paths when missing, then test the prefix. -/
def is_subpath (child parent : List Char) : Bool :=
  let c := if child.getLast? = some '/' then child else child ++ ['/']
  let p := if parent.getLast? = some '/' then parent else parent ++ ['/']
  p.isPrefixOf c

/-- The fields of a Torrent materialized by `_snapshot`. -/
structure Torrent where
  id : Nat
  name : List Char
  downloadDir : List Char
  isPrivate : Bool
  sizeWhenDone : Nat
deriving DecidableEq

/-- The per-torrent mutation of `_snapshot`: torrents not already at
`seed_dir` get their `downloadDir` replaced by its real path. -/
def canonTorrent (rp : List Char → List Char) (sd : List Char) (t : Torrent) :
    Torrent :=
  if t.downloadDir = sd then t else { t with downloadDir := rp t.downloadDir }

/-- The `torrents` side of the snapshot: every fetched torrent, after the
per-torrent canonicalization (the source mutates the shared record). -/
def snapshotAll (rp : List Char → List Char) (sd : List Char)
    (data : List Torrent) : List Torrent :=
  data.map (canonTorrent rp sd)

/-- The `seed_dir_torrents` side of the snapshot: keep a torrent whose
`downloadDir` equals the seed dir, or whose canonicalized directory is a
subpath of it; skip the rest. -/
def snapshotSeed (rp : List Char → List Char) (sd : List Char)
    (data : List Torrent) : List Torrent :=
  data.filterMap fun t =>
    if t.downloadDir = sd then some t
    else
      let t' := { t with downloadDir := rp t.downloadDir }
      if is_subpath t'.downloadDir sd then some t' else none

/-- Lookup in a dict built by `{t.id: t for t in l}`: the last matching
record wins. -/
def dictLookup (l : List Torrent) (i : Nat) : Option Torrent :=
  (l.filter fun s => decide (s.id = i)).getLast?

lemma is_subpath_refl (p : List Char) : is_subpath p p = true := by
  simp only [is_subpath]
  exact List.isPrefixOf_iff_prefix.mpr List.prefix_rfl

lemma canonTorrent_id (rp : List Char → List Char) (sd : List Char) (t : Torrent) :
    (canonTorrent rp sd t).id = t.id := by
  rw [canonTorrent]
  split <;> rfl

/-- `seed_dir_torrents` is the subpath-filter of the canonicalized
`torrents` list. -/
lemma snapshotSeed_eq_filter (rp : List Char → List Char) (sd : List Char)
    (data : List Torrent) :
    snapshotSeed rp sd data =
      (snapshotAll rp sd data).filter fun t => is_subpath t.downloadDir sd := by
  induction data with
  | nil => rfl
  | cons t data ih =>
    simp only [snapshotSeed, snapshotAll, List.filterMap_cons, List.map_cons,
      List.filter_cons] at ih ⊢
    by_cases hsd : t.downloadDir = sd
    · have hc : canonTorrent rp sd t = t := by rw [canonTorrent, if_pos hsd]
      have hsp : is_subpath t.downloadDir sd = true := by
        rw [hsd]
        exact is_subpath_refl sd
      rw [if_pos hsd, hc, hsp]
      simp only [if_true]
      rw [ih]
    · have hc : canonTorrent rp sd t = { t with downloadDir := rp t.downloadDir } := by
        rw [canonTorrent, if_neg hsd]
      rw [if_neg hsd, hc]
      cases hsp : is_subpath (rp t.downloadDir) sd
      · simp only [hsp, Bool.false_eq_true, if_false]
        rw [ih]
      · simp only [hsp, if_true]
        rw [ih]

lemma mem_of_getLast?_eq_some {α : Type} {l : List α} {x : α}
    (h : l.getLast? = some x) : x ∈ l := by
  obtain ⟨hne, hx⟩ := List.mem_getLast?_eq_getLast (Option.mem_def.mpr h)
  rw [hx]
  exact List.getLast_mem hne

lemma filter_id_singleton (i : Nat) :
    ∀ (l : List Torrent), ((l.map Torrent.id).Nodup) →
      ∀ t ∈ l, t.id = i → (l.filter fun s => decide (s.id = i)) = [t] := by
  intro l
  induction l with
  | nil => intro _ t ht; simp at ht
  | cons y l ih =>
    intro hnd t ht hid
    have hnd' : (l.map Torrent.id).Nodup := (List.nodup_cons.mp (by simpa using hnd)).2
    have hy : y.id ∉ l.map Torrent.id := (List.nodup_cons.mp (by simpa using hnd)).1
    rcases List.mem_cons.mp ht with h | h
    · subst h
      rw [List.filter_cons, if_pos (by simpa using hid)]
      have hnone : (l.filter fun s => decide (s.id = i)) = [] := by
        rw [List.filter_eq_nil_iff]
        intro s hs
        simp only [decide_eq_true_eq]
        intro hsid
        exact hy (by rw [hid, ← hsid]; exact List.mem_map_of_mem Torrent.id hs)
      rw [hnone]
    · have hyne : ¬ (y.id = i) := by
        intro hyid
        exact hy (by rw [hyid, ← hid]; exact List.mem_map_of_mem Torrent.id h)
      rw [List.filter_cons, if_neg (by simpa using hyne)]
      exact ih hnd' t h hid

/-- C10: assuming the daemon reports unique torrent ids, every id in
`seed_dir_torrents` maps to the very record `torrents` holds for that id,
that record's (canonicalized) `downloadDir` is the seed dir or lies under
it, and — third conjunct — no record outside the seed dir is in
`seed_dir_torrents`. -/
theorem snapshot_seed_subdict (rp : List Char → List Char) (sd : List Char)
    (data : List Torrent) (hids : (data.map Torrent.id).Nodup) (i : Nat)
    (t : Torrent) (hseed : dictLookup (snapshotSeed rp sd data) i = some t) :
    dictLookup (snapshotAll rp sd data) i = some t ∧
    is_subpath t.downloadDir sd = true ∧
    (∀ s ∈ snapshotSeed rp sd data, is_subpath s.downloadDir sd = true) := by
  have hmem_seed : t ∈ snapshotSeed rp sd data := by
    have := mem_of_getLast?_eq_some hseed
    exact List.mem_of_mem_filter this
  have hid : t.id = i := by
    have hmf := mem_of_getLast?_eq_some hseed
    have := (List.mem_filter.mp hmf).2
    simpa using this
  have hall_mem : ∀ s ∈ snapshotSeed rp sd data, is_subpath s.downloadDir sd = true := by
    intro s hs
    rw [snapshotSeed_eq_filter] at hs
    exact (List.mem_filter.mp hs).2
  have hmem_all : t ∈ snapshotAll rp sd data := by
    rw [snapshotSeed_eq_filter] at hmem_seed
    exact List.mem_of_mem_filter hmem_seed
  have hids_all : ((snapshotAll rp sd data).map Torrent.id).Nodup := by
    have : (snapshotAll rp sd data).map Torrent.id = data.map Torrent.id := by
      rw [snapshotAll, List.map_map]
      exact List.map_congr_left fun t _ => canonTorrent_id rp sd t
    rw [this]
    exact hids
  refine ⟨?_, hall_mem t hmem_seed, hall_mem⟩
  rw [dictLookup, filter_id_singleton i (snapshotAll rp sd data) hids_all t hmem_all hid]
  rfl

/-- Witness for C10: one torrent downloading straight into the seed dir
`/dl`, identity `realpath`. -/
theorem snapshot_seed_subdict_witness :
    dictLookup (snapshotAll (fun s => s) ['/', 'd', 'l']
      [{ id := 1, name := ['a'], downloadDir := ['/', 'd', 'l'],
         isPrivate := false, sizeWhenDone := 7 }]) 1 =
      some { id := 1, name := ['a'], downloadDir := ['/', 'd', 'l'],
             isPrivate := false, sizeWhenDone := 7 } :=
  (snapshot_seed_subdict (fun s => s) ['/', 'd', 'l']
    [{ id := 1, name := ['a'], downloadDir := ['/', 'd', 'l'],
       isPrivate := false, sizeWhenDone := 7 }] (by decide) 1
    { id := 1, name := ['a'], downloadDir := ['/', 'd', 'l'],
      isPrivate := false, sizeWhenDone := 7 } (by decide)).1

/-! ## Sequence detection (`cat.py::_has_sequence`)

The source drops disc-extension paths, groups the rest by directory name
(`root.rpartition("/")`), and, per directory of at least three files,
scans every stem with the regex
`(?<![0-9])(?:0?[1-9]|[1-9][0-9])(?![0-9])` — which matches exactly the
maximal runs of one or two digits whose value is in 1..99.  Per key
`(text before the digits, text after the digits, ext)` it accumulates a
bitmask of the matched values and reports a sequence as soon as
`bits & (bits >> 1) & (bits >> 2)` is non-zero.  Since the masks only
gain bits, the incremental early-return test is equivalent to testing
the final mask of some key, which is how `hasSequence` is phrased. -/

/-- Extensions of disc-image payload files (`cat.py::DISC_EXTS`). -/
def discExts : List (List Char) :=
  [['b', 'd', 'm', 'v'], ['m', '2', 't', 's'], ['i', 'f', 'o'],
   ['v', 'o', 'b'], ['e', 'v', 'o']]

/-- ASCII digit test (the regex class `[0-9]`). -/
def isDigitChar (c : Char) : Bool := 48 ≤ c.toNat && c.toNat ≤ 57

/-- Integer value of a digit run (`int(m[0])`). -/
def digitsVal (run : List Char) : Nat :=
  run.foldl (fun a c => 10 * a + (c.toNat - 48)) 0

/-- Whether a maximal digit run is a regex match: one or two digits with
value at least 1. -/
def runOK (run : List Char) : Bool :=
  decide (run ≠ []) && decide (run.length ≤ 2) && decide (1 ≤ digitsVal run)

/-- The scanner behind `seq_finder(stem)`: emits, in order, one
`(stem text before the digits, value, stem text after the digits)`
triple per regex match.  `pre` is the text already scanned, `run` the
digit run currently open. -/
def seqScan (pre run : List Char) : List Char → List (List Char × Nat × List Char)
  | [] => if runOK run then [(pre, digitsVal run, [])] else []
  | c :: cs =>
    if isDigitChar c then seqScan pre (run ++ [c]) cs
    else
      (if runOK run then [(pre, digitsVal run, c :: cs)] else []) ++
        seqScan (pre ++ run ++ [c]) [] cs

/-- `root.rpartition("/")` reduced to `(dirname, stem)`. -/
def dirStem (root : List Char) : List Char × List Char :=
  match root.reverse.findIdx? (· = '/') with
  | none => ([], root)
  | some j =>
    let k := root.length - 1 - j
    (root.take k, root.drop (k + 1))

/-- One entry of `dir_files`: `(dirname, stem, ext)`. -/
abbrev RelFile := List Char × List Char × List Char

/-- One key of `groups`: `(stem prefix, stem suffix, ext)`. -/
abbrev SeqKey := List Char × List Char × List Char

/-- The non-disc files of the scan, as `(dirname, stem, ext)`. -/
def relFiles (paths : List (List Char × List Char)) : List RelFile :=
  paths.filterMap fun p =>
    if p.2 ∈ discExts then none
    else some ((dirStem p.1).1, (dirStem p.1).2, p.2)

/-- The files of one directory group. -/
def dirFiles (rel : List RelFile) (d : List Char) : List RelFile :=
  rel.filter fun f => decide (f.1 = d)

/-- All `(key, value)` matches of one directory group. -/
def groupMatches (rel : List RelFile) (d : List Char) : List (SeqKey × Nat) :=
  (dirFiles rel d).flatMap fun f =>
    (seqScan [] [] f.2.1).map fun m => ((m.1, m.2.2, f.2.2), m.2.1)

/-- Final bitmask `groups[k]` of one key. -/
def maskFor (ms : List (SeqKey × Nat)) (k : SeqKey) : Nat :=
  ms.foldl (fun acc m => if m.1 = k then acc ||| (1 <<< m.2) else acc) 0

/-- `cat.py::_has_sequence`. -/
def hasSequence (paths : List (List Char × List Char)) : Bool :=
  if paths.length < 3 then false
  else
    (relFiles paths).any fun f =>
      decide (3 ≤ (dirFiles (relFiles paths) f.1).length) &&
        (groupMatches (relFiles paths) f.1).any fun m =>
          decide (maskFor (groupMatches (relFiles paths) f.1) m.1 &&&
              (maskFor (groupMatches (relFiles paths) f.1) m.1 >>> 1) &&&
              (maskFor (groupMatches (relFiles paths) f.1) m.1 >>> 2) ≠ 0)

lemma isDigitChar_bounds {c : Char} (h : isDigitChar c = true) :
    48 ≤ c.toNat ∧ c.toNat ≤ 57 := by
  simp only [isDigitChar, Bool.and_eq_true, decide_eq_true_eq] at h
  exact h

lemma digitsVal_le_99 (run : List Char) (hd : ∀ c ∈ run, isDigitChar c = true)
    (hl : run.length ≤ 2) : digitsVal run ≤ 99 := by
  match run with
  | [] => simp [digitsVal]
  | [a] =>
    have := isDigitChar_bounds (hd a (by simp))
    simp only [digitsVal, List.foldl_cons, List.foldl_nil]
    omega
  | [a, b] =>
    have ha := isDigitChar_bounds (hd a (by simp))
    have hb := isDigitChar_bounds (hd b (by simp))
    simp only [digitsVal, List.foldl_cons, List.foldl_nil]
    omega
  | a :: b :: c :: rest => simp at hl

/-- Every emitted match has value 1..99 and tears the scanned string into
`prefix ++ digit run ++ suffix`. -/
lemma seqScan_sound :
    ∀ (s pre run : List Char), (∀ c ∈ run, isDigitChar c = true) →
      ∀ p v post, (p, v, post) ∈ seqScan pre run s →
        1 ≤ v ∧ v ≤ 99 ∧ ∃ r, r ≠ [] ∧ r.length ≤ 2 ∧
          (∀ c ∈ r, isDigitChar c = true) ∧ v = digitsVal r ∧
          p ++ (r ++ post) = pre ++ (run ++ s) := by
  intro s
  induction s with
  | nil =>
    intro pre run hrun p v post hmem
    rw [seqScan] at hmem
    by_cases hok : runOK run = true
    · rw [if_pos hok] at hmem
      simp only [List.mem_singleton, Prod.mk.injEq] at hmem
      obtain ⟨hp, hv, hpost⟩ := hmem
      simp only [runOK, Bool.and_eq_true, decide_eq_true_eq] at hok
      subst hp hpost
      refine ⟨hv ▸ hok.2, hv ▸ digitsVal_le_99 run hrun hok.1.2, run, hok.1.1,
        hok.1.2, hrun, hv, rfl⟩
    · rw [if_neg hok] at hmem
      simp at hmem
  | cons c cs ih =>
    intro pre run hrun p v post hmem
    rw [seqScan] at hmem
    by_cases hdig : isDigitChar c = true
    · rw [if_pos hdig] at hmem
      have hrun' : ∀ x ∈ run ++ [c], isDigitChar x = true := by
        intro x hx
        rcases List.mem_append.mp hx with h | h
        · exact hrun x h
        · simp only [List.mem_singleton] at h
          exact h ▸ hdig
      obtain ⟨h1, h2, r, hr1, hr2, hr3, hr4, hr5⟩ := ih pre (run ++ [c]) hrun' p v post hmem
      refine ⟨h1, h2, r, hr1, hr2, hr3, hr4, ?_⟩
      rw [hr5]
      simp [List.append_assoc]
    · rw [if_neg hdig] at hmem
      rcases List.mem_append.mp hmem with hhead | htail
      · by_cases hok : runOK run = true
        · rw [if_pos hok] at hhead
          simp only [List.mem_singleton, Prod.mk.injEq] at hhead
          obtain ⟨hp, hv, hpost⟩ := hhead
          simp only [runOK, Bool.and_eq_true, decide_eq_true_eq] at hok
          subst hp hpost
          exact ⟨hv ▸ hok.2, hv ▸ digitsVal_le_99 run hrun hok.1.2, run, hok.1.1,
            hok.1.2, hrun, hv, rfl⟩
        · rw [if_neg hok] at hhead
          simp at hhead
      · obtain ⟨h1, h2, r, hr1, hr2, hr3, hr4, hr5⟩ :=
          ih (pre ++ run ++ [c]) [] (by simp) p v post htail
        refine ⟨h1, h2, r, hr1, hr2, hr3, hr4, ?_⟩
        rw [hr5]
        simp [List.append_assoc]

/-- Two matches of the same stem with the same prefix and suffix carry
the same value: the digit run is pinned by the decomposition. -/
lemma seqScan_val_unique (s p post : List Char) (v v' : Nat)
    (h1 : (p, v, post) ∈ seqScan [] [] s) (h2 : (p, v', post) ∈ seqScan [] [] s) :
    v = v' := by
  obtain ⟨_, _, r, _, _, _, hv, hsplit⟩ := seqScan_sound s [] [] (by simp) p v post h1
  obtain ⟨_, _, r', _, _, _, hv', hsplit'⟩ := seqScan_sound s [] [] (by simp) p v' post h2
  have : r ++ post = r' ++ post := by
    have := hsplit.trans hsplit'.symm
    exact List.append_cancel_left this
  have hr : r = r' := List.append_cancel_right this
  rw [hv, hv', hr]

lemma maskFor_testBit_aux (k : SeqKey) (j : Nat) :
    ∀ (ms : List (SeqKey × Nat)) (acc : Nat),
      (ms.foldl (fun a m => if m.1 = k then a ||| (1 <<< m.2) else a) acc).testBit j
          = true ↔
        (acc.testBit j = true ∨ ∃ m ∈ ms, m.1 = k ∧ m.2 = j) := by
  intro ms
  induction ms with
  | nil => intro acc; simp
  | cons m ms ih =>
    intro acc
    rw [List.foldl_cons, ih]
    by_cases hk : m.1 = k
    · rw [if_pos hk]
      simp only [Nat.testBit_or, Nat.shiftLeft_eq, one_mul, Nat.testBit_two_pow,
        Bool.or_eq_true, decide_eq_true_eq, List.mem_cons]
      constructor
      · rintro ((h | h) | ⟨x, hx, hxk, hxj⟩)
        · exact Or.inl h
        · exact Or.inr ⟨m, Or.inl rfl, hk, h⟩
        · exact Or.inr ⟨x, Or.inr hx, hxk, hxj⟩
      · rintro (h | ⟨x, (rfl | hx), hxk, hxj⟩)
        · exact Or.inl (Or.inl h)
        · exact Or.inl (Or.inr hxj)
        · exact Or.inr ⟨x, hx, hxk, hxj⟩
    · rw [if_neg hk]
      simp only [List.mem_cons]
      constructor
      · rintro (h | ⟨x, hx, hxk, hxj⟩)
        · exact Or.inl h
        · exact Or.inr ⟨x, Or.inr hx, hxk, hxj⟩
      · rintro (h | ⟨x, (rfl | hx), hxk, hxj⟩)
        · exact Or.inl h
        · exact absurd hxk hk
        · exact Or.inr ⟨x, hx, hxk, hxj⟩

lemma maskFor_testBit (ms : List (SeqKey × Nat)) (k : SeqKey) (j : Nat) :
    (maskFor ms k).testBit j = true ↔ ∃ m ∈ ms, m.1 = k ∧ m.2 = j := by
  rw [maskFor, maskFor_testBit_aux]
  simp

lemma exists_testBit_of_ne_zero {n : Nat} (h : n ≠ 0) : ∃ i, n.testBit i = true := by
  by_contra hc
  push_neg at hc
  exact h (Nat.zero_of_testBit_eq_false fun i => by simpa using hc i)

lemma mask_triple_iff (mask : Nat) :
    (mask &&& (mask >>> 1) &&& (mask >>> 2) ≠ 0) ↔
      ∃ j, mask.testBit j = true ∧ mask.testBit (j + 1) = true ∧
        mask.testBit (j + 2) = true := by
  constructor
  · intro h
    obtain ⟨j, hj⟩ := exists_testBit_of_ne_zero h
    rw [Nat.testBit_and, Nat.testBit_and, Nat.testBit_shiftRight,
      Nat.testBit_shiftRight, Bool.and_eq_true, Bool.and_eq_true] at hj
    exact ⟨j, hj.1.1, by rw [Nat.add_comm 1 j] at hj; exact hj.1.2,
      by rw [Nat.add_comm 2 j] at hj; exact hj.2⟩
  · rintro ⟨j, h1, h2, h3⟩ h0
    have : (mask &&& (mask >>> 1) &&& (mask >>> 2)).testBit j = true := by
      rw [Nat.testBit_and, Nat.testBit_and, Nat.testBit_shiftRight,
        Nat.testBit_shiftRight, Nat.add_comm 1 j, Nat.add_comm 2 j, h1, h2, h3]
      rfl
    rw [h0, Nat.zero_testBit] at this
    exact Bool.false_ne_true this

lemma three_distinct_le_length {α : Type} [DecidableEq α] (l : List α) (a b c : α)
    (ha : a ∈ l) (hb : b ∈ l) (hc : c ∈ l)
    (hab : a ≠ b) (hac : a ≠ c) (hbc : b ≠ c) : 3 ≤ l.length := by
  have hsub : ({a, b, c} : Finset α) ⊆ l.toFinset := by
    intro x hx
    rw [List.mem_toFinset]
    rcases Finset.mem_insert.mp hx with h | hx'
    · exact h ▸ ha
    rcases Finset.mem_insert.mp hx' with h | hx''
    · exact h ▸ hb
    · exact (Finset.mem_singleton.mp hx'') ▸ hc
  have hcard : ({a, b, c} : Finset α).card = 3 := by
    rw [Finset.card_insert_of_not_mem (by simp [hab, hac]),
      Finset.card_insert_of_not_mem (by simp [hbc]), Finset.card_singleton]
  calc 3 = ({a, b, c} : Finset α).card := hcard.symm
    _ ≤ l.toFinset.card := Finset.card_le_card hsub
    _ ≤ l.length := l.toFinset_card_le

lemma mem_dirFiles (rel : List RelFile) (d : List Char) (f : RelFile) :
    f ∈ dirFiles rel d ↔ f ∈ rel ∧ f.1 = d := by
  rw [dirFiles, List.mem_filter]
  simp

lemma mem_relFiles_iff (paths : List (List Char × List Char)) (f : RelFile) :
    f ∈ relFiles paths ↔
      ∃ p ∈ paths, p.2 ∉ discExts ∧
        f = ((dirStem p.1).1, (dirStem p.1).2, p.2) := by
  rw [relFiles, List.mem_filterMap]
  constructor
  · rintro ⟨p, hp, hsome⟩
    by_cases hdisc : p.2 ∈ discExts
    · rw [if_pos hdisc] at hsome
      exact absurd hsome (by simp)
    · rw [if_neg hdisc] at hsome
      exact ⟨p, hp, hdisc, (Option.some.injEq _ _ ▸ hsome).symm⟩
  · rintro ⟨p, hp, hdisc, hf⟩
    exact ⟨p, hp, by rw [if_neg hdisc, hf]⟩

lemma mem_groupMatches (rel : List RelFile) (d pre post e : List Char) (v : Nat) :
    ((pre, post, e), v) ∈ groupMatches rel d ↔
      ∃ f ∈ rel, f.1 = d ∧ f.2.2 = e ∧ (pre, v, post) ∈ seqScan [] [] f.2.1 := by
  rw [groupMatches, List.mem_flatMap]
  constructor
  · rintro ⟨f, hf, hm⟩
    rw [List.mem_map] at hm
    obtain ⟨m, hmm, heq⟩ := hm
    have h1 : m.1 = pre := congrArg (fun x => x.1.1) heq
    have h2 : m.2.2 = post := congrArg (fun x => x.1.2.1) heq
    have h3 : f.2.2 = e := congrArg (fun x => x.1.2.2) heq
    have h4 : m.2.1 = v := congrArg (fun x => x.2) heq
    obtain ⟨hfrel, hfd⟩ := (mem_dirFiles rel d f).mp hf
    refine ⟨f, hfrel, hfd, h3, ?_⟩
    have : m = (pre, v, post) := by
      rw [← h1, ← h4, ← h2]
    exact this ▸ hmm
  · rintro ⟨f, hf, hd, he, hm⟩
    refine ⟨f, (mem_dirFiles rel d f).mpr ⟨hf, hd⟩, ?_⟩
    rw [List.mem_map]
    exact ⟨(pre, v, post), hm, by rw [← he]⟩

/-- One regex match with a given key and value inside one directory
group: some non-disc path of the collection has directory name `d`,
extension `e`, and its stem matches the digits `k` between `pre` and
`post`. -/
def MatchInGroup (paths : List (List Char × List Char))
    (d pre post e : List Char) (k : Nat) : Prop :=
  ∃ p ∈ paths, p.2 ∉ discExts ∧ (dirStem p.1).1 = d ∧ p.2 = e ∧
    (pre, k, post) ∈ seqScan [] [] (dirStem p.1).2

lemma groupMatch_iff_MatchInGroup (paths : List (List Char × List Char))
    (d pre post e : List Char) (j : Nat) :
    ((pre, post, e), j) ∈ groupMatches (relFiles paths) d ↔
      MatchInGroup paths d pre post e j := by
  rw [mem_groupMatches]
  constructor
  · rintro ⟨f, hfrel, hfd, hfe, hscan⟩
    obtain ⟨p, hp, hdisc, hpf⟩ := (mem_relFiles_iff paths f).mp hfrel
    subst hpf
    exact ⟨p, hp, hdisc, hfd, hfe, hscan⟩
  · rintro ⟨p, hp, hdisc, hd, he, hscan⟩
    refine ⟨((dirStem p.1).1, (dirStem p.1).2, p.2),
      (mem_relFiles_iff paths _).mpr ⟨p, hp, hdisc, rfl⟩, hd, he, hscan⟩

/-- C6: the sequence detector returns true iff, among the non-disc
paths, some group sharing `(directory name, stem text before the digits,
stem text after the digits, extension)` contains matches of three
consecutive integers `n`, `n + 1`, `n + 2`, each in 1..99, found in the
file stems. -/
theorem hasSequence_iff (paths : List (List Char × List Char)) :
    hasSequence paths = true ↔
      ∃ (d pre post e : List Char) (n : Nat), 1 ≤ n ∧ n + 2 ≤ 99 ∧
        MatchInGroup paths d pre post e n ∧
        MatchInGroup paths d pre post e (n + 1) ∧
        MatchInGroup paths d pre post e (n + 2) := by
  constructor
  · intro h
    rw [hasSequence] at h
    by_cases hlen : paths.length < 3
    · rw [if_pos hlen] at h
      exact absurd h (by simp)
    rw [if_neg hlen, List.any_eq_true] at h
    obtain ⟨f, hf, hcond⟩ := h
    rw [Bool.and_eq_true] at hcond
    obtain ⟨-, hany⟩ := hcond
    rw [List.any_eq_true] at hany
    obtain ⟨m, hm, hmask⟩ := hany
    rw [decide_eq_true_eq, mask_triple_iff] at hmask
    obtain ⟨j, hj0, hj1, hj2⟩ := hmask
    obtain ⟨m0, hm0, hm0k, hm0v⟩ :=
      (maskFor_testBit (groupMatches (relFiles paths) f.1) m.1 j).mp hj0
    obtain ⟨m1, hm1, hm1k, hm1v⟩ :=
      (maskFor_testBit (groupMatches (relFiles paths) f.1) m.1 (j + 1)).mp hj1
    obtain ⟨m2, hm2, hm2k, hm2v⟩ :=
      (maskFor_testBit (groupMatches (relFiles paths) f.1) m.1 (j + 2)).mp hj2
    have hconv : ∀ (mx : SeqKey × Nat) (jx : Nat), mx ∈ groupMatches (relFiles paths) f.1 →
        mx.1 = m.1 → mx.2 = jx →
        ((m.1.1, m.1.2.1, m.1.2.2), jx) ∈ groupMatches (relFiles paths) f.1 := by
      intro mx jx hmem hk hv
      have : mx = ((m.1.1, m.1.2.1, m.1.2.2), jx) := by
        rw [← hk, ← hv]
      exact this ▸ hmem
    have hg0 := (groupMatch_iff_MatchInGroup paths f.1 m.1.1 m.1.2.1 m.1.2.2 j).mp
      (hconv m0 j hm0 hm0k hm0v)
    have hg1 := (groupMatch_iff_MatchInGroup paths f.1 m.1.1 m.1.2.1 m.1.2.2 (j + 1)).mp
      (hconv m1 (j + 1) hm1 hm1k hm1v)
    have hg2 := (groupMatch_iff_MatchInGroup paths f.1 m.1.1 m.1.2.1 m.1.2.2 (j + 2)).mp
      (hconv m2 (j + 2) hm2 hm2k hm2v)
    obtain ⟨p0, -, -, -, -, hscan0⟩ := id hg0
    obtain ⟨p2, -, -, -, -, hscan2⟩ := id hg2
    have hb0 := seqScan_sound _ [] [] (by simp) _ _ _ hscan0
    have hb2 := seqScan_sound _ [] [] (by simp) _ _ _ hscan2
    exact ⟨f.1, m.1.1, m.1.2.1, m.1.2.2, j, hb0.1, hb2.2.1, hg0, hg1, hg2⟩
  · rintro ⟨d, pre, post, e, n, hn1, hn99, h0, h1, h2⟩
    obtain ⟨p0, hp0, hdisc0, hd0, he0, hscan0⟩ := h0
    obtain ⟨p1, hp1, hdisc1, hd1, he1, hscan1⟩ := h1
    obtain ⟨p2, hp2, hdisc2, hd2, he2, hscan2⟩ := h2
    have hf0 : ((dirStem p0.1).1, (dirStem p0.1).2, p0.2) ∈ relFiles paths :=
      (mem_relFiles_iff paths _).mpr ⟨p0, hp0, hdisc0, rfl⟩
    have hf1 : ((dirStem p1.1).1, (dirStem p1.1).2, p1.2) ∈ relFiles paths :=
      (mem_relFiles_iff paths _).mpr ⟨p1, hp1, hdisc1, rfl⟩
    have hf2 : ((dirStem p2.1).1, (dirStem p2.1).2, p2.2) ∈ relFiles paths :=
      (mem_relFiles_iff paths _).mpr ⟨p2, hp2, hdisc2, rfl⟩
    have hs01 : (dirStem p0.1).2 ≠ (dirStem p1.1).2 := by
      intro heq
      have := seqScan_val_unique _ pre post n (n + 1) hscan0 (heq ▸ hscan1)
      omega
    have hs02 : (dirStem p0.1).2 ≠ (dirStem p2.1).2 := by
      intro heq
      have := seqScan_val_unique _ pre post n (n + 2) hscan0 (heq ▸ hscan2)
      omega
    have hs12 : (dirStem p1.1).2 ≠ (dirStem p2.1).2 := by
      intro heq
      have := seqScan_val_unique _ pre post (n + 1) (n + 2) hscan1 (heq ▸ hscan2)
      omega
    have hdf0 : ((dirStem p0.1).1, (dirStem p0.1).2, p0.2) ∈
        dirFiles (relFiles paths) d :=
      (mem_dirFiles _ _ _).mpr ⟨hf0, hd0⟩
    have hdf1 : ((dirStem p1.1).1, (dirStem p1.1).2, p1.2) ∈
        dirFiles (relFiles paths) d :=
      (mem_dirFiles _ _ _).mpr ⟨hf1, hd1⟩
    have hdf2 : ((dirStem p2.1).1, (dirStem p2.1).2, p2.2) ∈
        dirFiles (relFiles paths) d :=
      (mem_dirFiles _ _ _).mpr ⟨hf2, hd2⟩
    have hfiles3 : 3 ≤ (dirFiles (relFiles paths) d).length := by
      refine three_distinct_le_length _ _ _ _ hdf0 hdf1 hdf2 ?_ ?_ ?_ <;>
        simp [hs01, hs02, hs12]
    have hpaths3 : ¬ paths.length < 3 := by
      have hr : (relFiles paths).length ≤ paths.length := by
        rw [relFiles]
        exact List.length_filterMap_le _ _
      have hd' : (dirFiles (relFiles paths) d).length ≤ (relFiles paths).length := by
        rw [dirFiles]
        exact List.length_filter_le _ _
      omega
    have hgm0 : ((pre, post, e), n) ∈ groupMatches (relFiles paths) d :=
      (mem_groupMatches _ _ _ _ _ _).mpr ⟨_, hf0, hd0, he0, hscan0⟩
    have hgm1 : ((pre, post, e), n + 1) ∈ groupMatches (relFiles paths) d :=
      (mem_groupMatches _ _ _ _ _ _).mpr ⟨_, hf1, hd1, he1, hscan1⟩
    have hgm2 : ((pre, post, e), n + 2) ∈ groupMatches (relFiles paths) d :=
      (mem_groupMatches _ _ _ _ _ _).mpr ⟨_, hf2, hd2, he2, hscan2⟩
    rw [hasSequence, if_neg hpaths3, List.any_eq_true]
    refine ⟨((dirStem p0.1).1, (dirStem p0.1).2, p0.2), hf0, ?_⟩
    rw [Bool.and_eq_true, decide_eq_true_eq, List.any_eq_true]
    have hdeq : ((dirStem p0.1).1, (dirStem p0.1).2, p0.2).1 = d := hd0
    rw [hdeq]
    refine ⟨hfiles3, ((pre, post, e), n), hgm0, ?_⟩
    rw [decide_eq_true_eq, mask_triple_iff]
    exact ⟨n,
      (maskFor_testBit _ _ _).mpr ⟨((pre, post, e), n), hgm0, rfl, rfl⟩,
      (maskFor_testBit _ _ _).mpr ⟨((pre, post, e), n + 1), hgm1, rfl, rfl⟩,
      (maskFor_testBit _ _ _).mpr ⟨((pre, post, e), n + 2), hgm2, rfl, rfl⟩⟩

/-! ## Classifier scoring (`cat.py::Categorizer.infer`, steps 3-6)

`infer` is embedded from the point where the torrent-name category has
been computed (step 1) and the file walk has produced the type byte
counts, the noise-filtered `videos` dict and the `containers` dict
(step 2): those are parameters here, as are the three pattern-file regex
tests.  `videoBytes` is the pre-noise-filter video total, as in the
source.  Scores are rationals: `0.30 * total` is modelled as the exact
`total * (3/10)`. -/

/-- `cat.py::Cat`, the five categories (declaration order of the enum is
irrelevant here; the scores dict order is what ties use). -/
inductive Cat where
  | DEFAULT
  | MOVIES
  | TV_SHOWS
  | MUSIC
  | AV
deriving DecidableEq

/-- The four scores of the dict built in `infer`, in its insertion order
`TV_SHOWS, MOVIES, MUSIC, DEFAULT`. -/
structure Scores where
  tv : ℚ
  mv : ℚ
  mus : ℚ
  df : ℚ

/-- `cat.py::_test_paths`: some `/`-segment of some root matches. -/
def test_paths (method : List Char → Bool) (paths : List PathKey) : Bool :=
  paths.any fun p => (p.1.splitOn '/').any method

/-- The per-entry container allocation of `infer`: first TV match wins,
else first movie match, else DEFAULT. -/
def containerAlloc (tvt mvt : List Char → Bool)
    (containers : List (PathKey × Nat)) (s : Scores) : Scores :=
  containers.foldl
    (fun s kv =>
      let segs := kv.1.1.splitOn '/'
      if segs.any tvt then { s with tv := s.tv + (kv.2 : ℚ) }
      else if segs.any mvt then { s with mv := s.mv + (kv.2 : ℚ) }
      else { s with df := s.df + (kv.2 : ℚ) })
    s

/-- Python's `max(scores, key=scores.get)` over an association list: keep
the current maximum, replacing it only when a later value is strictly
greater — so the first maximal key wins. -/
def pickMaxGo (c : Cat) (v : ℚ) : List (Cat × ℚ) → Cat
  | [] => c
  | (c', v') :: rest => if v < v' then pickMaxGo c' v' rest else pickMaxGo c v rest

/-- `max` over a non-empty association list (`Cat.DEFAULT` on the empty
list, which `infer` never produces). -/
def pickMax : List (Cat × ℚ) → Cat
  | [] => Cat.DEFAULT
  | (c, v) :: rest => pickMaxGo c v rest

/-- The four scores after initialization, video allocation (winner takes
all between TV and MOVIES), container allocation, and the
`0.30 * total_bytes` name bonus. -/
def finalScores (tvt mvt : List Char → Bool) (name_cat : Option Cat)
    (videoBytes audioBytes otherBytes : Nat)
    (videos containers : List (PathKey × Nat)) : Scores :=
  let s0 : Scores := ⟨0, 0, (audioBytes : ℚ), (otherBytes : ℚ)⟩
  let s1 :=
    if test_paths tvt (videos.map Prod.fst) || hasSequence (videos.map Prod.fst)
    then { s0 with tv := s0.tv + (videoBytes : ℚ) }
    else { s0 with mv := s0.mv + (videoBytes : ℚ) }
  let s2 := containerAlloc tvt mvt containers s1
  let total : ℚ := (videoBytes : ℚ) + ((containers.map Prod.snd).sum : ℚ) +
    (audioBytes : ℚ) + (otherBytes : ℚ)
  match name_cat with
  | some Cat.TV_SHOWS => { s2 with tv := s2.tv + total * (3 / 10) }
  | some Cat.MOVIES => { s2 with mv := s2.mv + total * (3 / 10) }
  | some Cat.MUSIC => { s2 with mus := s2.mus + total * (3 / 10) }
  | some Cat.DEFAULT => { s2 with df := s2.df + total * (3 / 10) }
  | _ => s2

/-- `cat.py::Categorizer.infer` from step 3 on: the early AV returns,
then the highest-scoring category of the scores dict. -/
def inferTail (avt tvt mvt : List Char → Bool) (name_cat : Option Cat)
    (videoBytes audioBytes otherBytes : Nat)
    (videos containers : List (PathKey × Nat)) : Cat :=
  if name_cat = some Cat.AV then Cat.AV
  else if test_paths avt (videos.map Prod.fst) ||
      test_paths avt (containers.map Prod.fst) then Cat.AV
  else
    let s := finalScores tvt mvt name_cat videoBytes audioBytes otherBytes
      videos containers
    pickMax [(Cat.TV_SHOWS, s.tv), (Cat.MOVIES, s.mv), (Cat.MUSIC, s.mus),
      (Cat.DEFAULT, s.df)]

/-- Score of a category (0 for `AV`, which holds no score). -/
def scoreOf (s : Scores) : Cat → ℚ
  | Cat.TV_SHOWS => s.tv
  | Cat.MOVIES => s.mv
  | Cat.MUSIC => s.mus
  | Cat.DEFAULT => s.df
  | Cat.AV => 0

/-- The scores dict in insertion order. -/
def catOrder : List Cat := [Cat.TV_SHOWS, Cat.MOVIES, Cat.MUSIC, Cat.DEFAULT]

/-- Position of a category in the scores dict order. -/
def catRank : Cat → Nat
  | Cat.TV_SHOWS => 0
  | Cat.MOVIES => 1
  | Cat.MUSIC => 2
  | Cat.DEFAULT => 3
  | Cat.AV => 4

/-- Exact characterization of the 4-entry first-maximum pick. -/
lemma pickMax4_spec (a b c d : ℚ) :
    (pickMax [(Cat.TV_SHOWS, a), (Cat.MOVIES, b), (Cat.MUSIC, c),
        (Cat.DEFAULT, d)] = Cat.TV_SHOWS ∧ b ≤ a ∧ c ≤ a ∧ d ≤ a) ∨
    (pickMax [(Cat.TV_SHOWS, a), (Cat.MOVIES, b), (Cat.MUSIC, c),
        (Cat.DEFAULT, d)] = Cat.MOVIES ∧ a < b ∧ c ≤ b ∧ d ≤ b) ∨
    (pickMax [(Cat.TV_SHOWS, a), (Cat.MOVIES, b), (Cat.MUSIC, c),
        (Cat.DEFAULT, d)] = Cat.MUSIC ∧ a < c ∧ b < c ∧ d ≤ c) ∨
    (pickMax [(Cat.TV_SHOWS, a), (Cat.MOVIES, b), (Cat.MUSIC, c),
        (Cat.DEFAULT, d)] = Cat.DEFAULT ∧ a < d ∧ b < d ∧ c < d) := by
  simp only [pickMax, pickMaxGo]
  split_ifs <;>
    first
      | exact Or.inl ⟨rfl, by linarith, by linarith, by linarith⟩
      | exact Or.inr (Or.inl ⟨rfl, by linarith, by linarith, by linarith⟩)
      | exact Or.inr (Or.inr (Or.inl ⟨rfl, by linarith, by linarith, by linarith⟩))
      | exact Or.inr (Or.inr (Or.inr ⟨rfl, by linarith, by linarith, by linarith⟩))

lemma argmax_conclusion (s : Scores) (r : Cat)
    (hspec : (r = Cat.TV_SHOWS ∧ s.mv ≤ s.tv ∧ s.mus ≤ s.tv ∧ s.df ≤ s.tv) ∨
      (r = Cat.MOVIES ∧ s.tv < s.mv ∧ s.mus ≤ s.mv ∧ s.df ≤ s.mv) ∨
      (r = Cat.MUSIC ∧ s.tv < s.mus ∧ s.mv < s.mus ∧ s.df ≤ s.mus) ∨
      (r = Cat.DEFAULT ∧ s.tv < s.df ∧ s.mv < s.df ∧ s.mus < s.df)) :
    r ∈ catOrder ∧ (∀ c ∈ catOrder, scoreOf s c ≤ scoreOf s r) ∧
      (∀ c ∈ catOrder, catRank c < catRank r → scoreOf s c < scoreOf s r) := by
  rcases hspec with ⟨rfl, h1, h2, h3⟩ | ⟨rfl, h1, h2, h3⟩ | ⟨rfl, h1, h2, h3⟩ |
    ⟨rfl, h1, h2, h3⟩ <;>
  refine ⟨by simp [catOrder], fun c hc => ?_, fun c hc hrank => ?_⟩ <;>
  simp only [catOrder, List.mem_cons, List.not_mem_nil, or_false] at hc <;>
  rcases hc with rfl | rfl | rfl | rfl <;>
  first
    | (simp only [catRank] at hrank; omega)
    | (simp only [scoreOf]; linarith)

/-- C5: whenever `infer` does not return `AV`, it returns a category of
the scores dict whose score is maximal, and every category listed
earlier in the dict order `TV_SHOWS, MOVIES, MUSIC, DEFAULT` has a
strictly smaller score — i.e. ties resolve to the earliest listed. -/
theorem infer_scoring (avt tvt mvt : List Char → Bool) (name_cat : Option Cat)
    (videoBytes audioBytes otherBytes : Nat)
    (videos containers : List (PathKey × Nat))
    (h : inferTail avt tvt mvt name_cat videoBytes audioBytes otherBytes
      videos containers ≠ Cat.AV) :
    inferTail avt tvt mvt name_cat videoBytes audioBytes otherBytes
        videos containers ∈ catOrder ∧
    (∀ c ∈ catOrder,
      scoreOf (finalScores tvt mvt name_cat videoBytes audioBytes otherBytes
          videos containers) c ≤
        scoreOf (finalScores tvt mvt name_cat videoBytes audioBytes otherBytes
          videos containers)
          (inferTail avt tvt mvt name_cat videoBytes audioBytes otherBytes
            videos containers)) ∧
    (∀ c ∈ catOrder,
      catRank c < catRank (inferTail avt tvt mvt name_cat videoBytes audioBytes
        otherBytes videos containers) →
      scoreOf (finalScores tvt mvt name_cat videoBytes audioBytes otherBytes
          videos containers) c <
        scoreOf (finalScores tvt mvt name_cat videoBytes audioBytes otherBytes
          videos containers)
          (inferTail avt tvt mvt name_cat videoBytes audioBytes otherBytes
            videos containers)) := by
  by_cases hav1 : name_cat = some Cat.AV
  · exact absurd (by rw [inferTail, if_pos hav1]) h
  by_cases hav2 : (test_paths avt (videos.map Prod.fst) ||
      test_paths avt (containers.map Prod.fst)) = true
  · exact absurd (by rw [inferTail, if_neg hav1, if_pos hav2]) h
  have hr : inferTail avt tvt mvt name_cat videoBytes audioBytes otherBytes
      videos containers =
      pickMax [(Cat.TV_SHOWS, (finalScores tvt mvt name_cat videoBytes audioBytes
          otherBytes videos containers).tv),
        (Cat.MOVIES, (finalScores tvt mvt name_cat videoBytes audioBytes
          otherBytes videos containers).mv),
        (Cat.MUSIC, (finalScores tvt mvt name_cat videoBytes audioBytes
          otherBytes videos containers).mus),
        (Cat.DEFAULT, (finalScores tvt mvt name_cat videoBytes audioBytes
          otherBytes videos containers).df)] := by
    rw [inferTail, if_neg hav1, if_neg hav2]
  rw [hr]
  exact argmax_conclusion
    (finalScores tvt mvt name_cat videoBytes audioBytes otherBytes videos containers)
    _
    (pickMax4_spec
      (finalScores tvt mvt name_cat videoBytes audioBytes otherBytes videos
        containers).tv
      (finalScores tvt mvt name_cat videoBytes audioBytes otherBytes videos
        containers).mv
      (finalScores tvt mvt name_cat videoBytes audioBytes otherBytes videos
        containers).mus
      (finalScores tvt mvt name_cat videoBytes audioBytes otherBytes videos
        containers).df)

lemma pickMax4_ne_av (a b c d : ℚ) :
    pickMax [(Cat.TV_SHOWS, a), (Cat.MOVIES, b), (Cat.MUSIC, c),
      (Cat.DEFAULT, d)] ≠ Cat.AV := by
  rcases pickMax4_spec a b c d with ⟨h, -⟩ | ⟨h, -⟩ | ⟨h, -⟩ | ⟨h, -⟩ <;>
    simp [h]

/-- Witness for C5: one large feature video, no matches anywhere; the
returned category's score is at least the earlier `TV_SHOWS` entry's. -/
theorem infer_scoring_witness :
    scoreOf
      (finalScores (fun _ => false) (fun _ => false) none
        8589934592 0 0 [((['f'], ['m', 'k', 'v']), 8589934592)] [])
      Cat.TV_SHOWS ≤
    scoreOf
      (finalScores (fun _ => false) (fun _ => false) none
        8589934592 0 0 [((['f'], ['m', 'k', 'v']), 8589934592)] [])
      (inferTail (fun _ => false) (fun _ => false) (fun _ => false) none
        8589934592 0 0 [((['f'], ['m', 'k', 'v']), 8589934592)] []) :=
  ((infer_scoring (fun _ => false) (fun _ => false) (fun _ => false) none
      8589934592 0 0 [((['f'], ['m', 'k', 'v']), 8589934592)] []
      (by
        rw [inferTail, if_neg (by decide), if_neg (by decide)]
        exact pickMax4_ne_av _ _ _ _)).2.1) Cat.TV_SHOWS (by simp [catOrder])

end Queersmission
